import Mathlib

/-!
Verification of the President card-game rules engine.

The definitions below are a shallow embedding of the Python sources
(`src/card.py`, `src/player.py`, `src/trick.py`, `src/game.py`):
pure functions become Lean functions, in-place mutation becomes explicit
state passing, and raising code returns `Option`/`Except`.
-/

namespace President

/-- Card suits (`Suit` enum in `src/card.py`), in declaration order. -/
inductive Suit where
  | clubs | diamonds | hearts | spades
deriving DecidableEq, Repr

/-- Card ranks (`Rank` enum in `src/card.py`), in declaration order
(THREE first, TWO last). -/
inductive Rank where
  | three | four | five | six | seven | eight | nine | ten
  | jack | queen | king | ace | two
deriving DecidableEq, Repr

/-- The comparison value of a rank (`Rank` enum values: THREE = 0 … TWO = 12). -/
def Rank.value : Rank → Nat
  | .three => 0
  | .four => 1
  | .five => 2
  | .six => 3
  | .seven => 4
  | .eight => 5
  | .nine => 6
  | .ten => 7
  | .jack => 8
  | .queen => 9
  | .king => 10
  | .ace => 11
  | .two => 12

/-- A playing card (`Card` in `src/card.py`): a (suit, rank) pair with
structural equality, matching `Card.__eq__`. -/
structure Card where
  suit : Suit
  rank : Rank
deriving DecidableEq, Repr

/-- `Card.get_value`: the rank's comparison value. -/
def Card.getValue (c : Card) : Nat := c.rank.value

/-- `Card.is_three_of_spades`: exact suit and rank match. -/
def Card.isThreeOfSpades (c : Card) : Bool :=
  c.suit == Suit.spades && c.rank == Rank.three

/-- The 3♠ card value. -/
def threeOfSpades : Card := ⟨Suit.spades, Rank.three⟩

theorem isThreeOfSpades_iff (c : Card) :
    c.isThreeOfSpades = true ↔ c = threeOfSpades := by
  cases c with
  | mk s r =>
    cases s <;> cases r <;> simp [Card.isThreeOfSpades, threeOfSpades]

/-- All suits in `Suit` declaration order (iteration order of `for suit in Suit`). -/
def allSuits : List Suit := [.clubs, .diamonds, .hearts, .spades]

/-- All ranks in `Rank` declaration order (iteration order of `for rank in Rank`). -/
def allRanks : List Rank :=
  [.three, .four, .five, .six, .seven, .eight, .nine, .ten,
   .jack, .queen, .king, .ace, .two]

/-- `Deck.__init__`: all 52 (suit, rank) combinations, suit-major in
declaration order. -/
def fullDeck : List Card :=
  (allSuits.map (fun s => allRanks.map (fun r => Card.mk s r))).flatten

/-- A play (`Play` in `src/trick.py`): the played cards, the owning player
(identified by a numeric id), and the rank recorded at construction
(`self.rank = cards[0].rank`). -/
structure Play where
  cards : List Card
  player : Nat
  rank : Rank
deriving DecidableEq, Repr

/-- `Play.__init__` (`src/trick.py`): fails on an empty card list or on
mixed ranks, otherwise records `num_cards = len(cards)` (kept here as
`cards.length`) and `rank = cards[0].rank`. -/
def mkPlay (cards : List Card) (player : Nat) : Except String Play :=
  match cards with
  | [] => Except.error "Cannot create play with no cards"
  | c :: _ =>
      if cards.all (fun x => x.rank == c.rank) then
        Except.ok ⟨cards, player, c.rank⟩
      else
        Except.error "All cards in a play must have the same rank"

/-- `self.num_cards == 1 and self.cards[0].is_three_of_spades()` in
`Play.beats` (`src/trick.py`). -/
def Play.isSingleThreeSpades (p : Play) : Bool :=
  match p.cards with
  | [c] => c.isThreeOfSpades
  | _ => false

/-- `Play.beats` (`src/trick.py` lines 46–68): false on differing card
counts; a single 3♠ beats everything; nothing (else) beats a single 3♠;
otherwise compare rank values. -/
def Play.beats (p other : Play) : Bool :=
  if p.cards.length != other.cards.length then false
  else if p.isSingleThreeSpades then true
  else if other.isSingleThreeSpades then false
  else p.rank.value > other.rank.value

/-- C1: `Play.beats` returns false when card counts differ; true whenever
the acting play is a single 3♠ (and counts match); false whenever the other
play is a single 3♠ and the acting one is not; and in all remaining cases
it compares the plays' rank values strictly. -/
theorem beats_spec (p q : Play) :
    (p.cards.length ≠ q.cards.length → p.beats q = false) ∧
    (p.cards.length = q.cards.length → p.isSingleThreeSpades = true →
      p.beats q = true) ∧
    (q.isSingleThreeSpades = true → p.isSingleThreeSpades = false →
      p.beats q = false) ∧
    (p.cards.length = q.cards.length → p.isSingleThreeSpades = false →
      q.isSingleThreeSpades = false →
      (p.beats q = true ↔ q.rank.value < p.rank.value)) := by
  refine ⟨?_, ?_, ?_, ?_⟩
  · intro h
    simp [Play.beats, h]
  · intro hlen h3
    simp [Play.beats, hlen, h3]
  · intro hq hp
    by_cases hlen : p.cards.length = q.cards.length
    · simp [Play.beats, hlen, hp, hq]
    · simp [Play.beats, hlen]
  · intro hlen hp hq
    simp [Play.beats, hlen, hp, hq]

/-- Witness for C1 at concrete plays: a pair of fours against a single five
(count mismatch), and a single five against a single four (rank comparison). -/
theorem beats_spec_witness :
    (Play.beats ⟨[⟨.clubs, .four⟩, ⟨.hearts, .four⟩], 0, .four⟩
      ⟨[⟨.clubs, .five⟩], 1, .five⟩ = false) ∧
    (Play.beats ⟨[⟨.clubs, .five⟩], 0, .five⟩
      ⟨[⟨.clubs, .four⟩], 1, .four⟩ = true) := by
  constructor
  · exact (beats_spec ⟨[⟨.clubs, .four⟩, ⟨.hearts, .four⟩], 0, .four⟩
      ⟨[⟨.clubs, .five⟩], 1, .five⟩).1 (by decide)
  · exact ((beats_spec ⟨[⟨.clubs, .five⟩], 0, .five⟩
      ⟨[⟨.clubs, .four⟩], 1, .four⟩).2.2.2 (by decide) (by decide)
      (by decide)).mpr (by decide)

/-- Stable insertion of a card into a value-sorted list: skip past strictly
smaller values so that an earlier element lands before later equal-valued
ones, as Python's stable `list.sort` does. -/
def insertByValue (c : Card) : List Card → List Card
  | [] => [c]
  | d :: ds => if d.getValue < c.getValue then d :: insertByValue c ds else c :: d :: ds

/-- Stable ascending sort by `get_value`, modelling
`self.hand.sort(key=lambda card: card.get_value())` in `Player.sort_hand`. -/
def sortByValue : List Card → List Card
  | [] => []
  | c :: cs => insertByValue c (sortByValue cs)

theorem perm_insertByValue (c : Card) (l : List Card) :
    List.Perm (insertByValue c l) (c :: l) := by
  induction l with
  | nil => simp [insertByValue]
  | cons d ds ih =>
    simp only [insertByValue]
    split
    · exact ((ih.cons d).trans (List.Perm.swap c d ds))
    · exact List.Perm.refl _

theorem perm_sortByValue (l : List Card) : List.Perm (sortByValue l) l := by
  induction l with
  | nil => simp [sortByValue]
  | cons c cs ih =>
    exact (perm_insertByValue c (sortByValue cs)).trans (ih.cons c)

theorem sorted_insertByValue (c : Card) (l : List Card)
    (h : l.Pairwise (fun a b => a.getValue ≤ b.getValue)) :
    (insertByValue c l).Pairwise (fun a b => a.getValue ≤ b.getValue) := by
  induction l with
  | nil => simp [insertByValue]
  | cons d ds ih =>
    simp only [insertByValue]
    rcases List.pairwise_cons.mp h with ⟨hd, hds⟩
    split
    · rename_i hlt
      refine List.pairwise_cons.mpr ⟨?_, ih hds⟩
      intro x hx
      rcases List.mem_cons.mp ((perm_insertByValue c ds).mem_iff.mp hx) with rfl | hx
      · exact Nat.le_of_lt hlt
      · exact hd x hx
    · rename_i hge
      refine List.pairwise_cons.mpr ⟨?_, h⟩
      intro x hx
      rcases List.mem_cons.mp hx with hx | hx
      · subst hx; exact Nat.le_of_not_lt hge
      · exact Nat.le_trans (Nat.le_of_not_lt hge) (hd x hx)

theorem sorted_sortByValue (l : List Card) :
    (sortByValue l).Pairwise (fun a b => a.getValue ≤ b.getValue) := by
  induction l with
  | nil => simp [sortByValue]
  | cons c cs ih => exact sorted_insertByValue c (sortByValue cs) ih

/-- `Player.sort_hand` (`src/player.py` lines 44–60): stable ascending sort
by value, except that when the hand's Threes are exactly one card and it is
the 3♠, that card is removed and re-appended at the end. -/
def sortHand (hand : List Card) : List Card :=
  let s := sortByValue hand
  match hand.filter (fun c => c.rank == Rank.three) with
  | [t] => if t.isThreeOfSpades then (s.erase t) ++ [t] else s
  | _ => s

theorem perm_sortHand (hand : List Card) : List.Perm (sortHand hand) hand := by
  unfold sortHand
  have hperm := perm_sortByValue hand
  split
  · rename_i t heq
    split
    · rename_i h3
      have ht : t ∈ sortByValue hand := by
        have : t ∈ hand.filter (fun c => c.rank == Rank.three) := by
          rw [heq]; exact List.mem_singleton_self t
        exact hperm.mem_iff.mpr (List.mem_of_mem_filter this)
      have h1 : List.Perm ((sortByValue hand).erase t ++ [t])
          (t :: (sortByValue hand).erase t) := List.perm_append_comm
      have h2 : List.Perm (t :: (sortByValue hand).erase t) (sortByValue hand) :=
        (List.perm_cons_erase ht).symm
      exact (h1.trans h2).trans hperm
    · exact hperm
  · exact hperm

theorem length_sortHand (hand : List Card) :
    (sortHand hand).length = hand.length :=
  (perm_sortHand hand).length_eq

/-- Python slice `l[-num:]`: the whole list when `num = 0`, otherwise the
last `num` elements. -/
def lastSlice (l : List Card) (num : Nat) : List Card :=
  if num = 0 then l else l.drop (l.length - num)

/-- `Player.choose_cards_to_give` (`src/player.py` lines 171–189): fails
when `num` exceeds the hand size; otherwise sorts the hand in place with
`sort_hand` and returns the slice `hand[-num:]`.  The returned pair is
(chosen cards, hand after the in-place sort). -/
def chooseCardsToGive (hand : List Card) (num : Nat) :
    Option (List Card × List Card) :=
  if hand.length < num then none
  else
    let s := sortHand hand
    some (lastSlice s num, s)

/-- `Player.remove_cards` (`src/player.py` lines 30–42): remove the cards
one at a time (first occurrence each), failing at the first card that is
not in the hand. -/
def removeCards (cards hand : List Card) : Option (List Card) :=
  match cards with
  | [] => some hand
  | c :: cs => if c ∈ hand then removeCards cs (hand.erase c) else none

/-- The same sequential removal, keeping the partially mutated hand on
failure: returns the hand after processing together with a success flag,
mirroring the in-place mutation of `Player.remove_cards` observable after
the `ValueError` is raised. -/
def removeCardsTrace (cards hand : List Card) : List Card × Bool :=
  match cards with
  | [] => (hand, true)
  | c :: cs => if c ∈ hand then removeCardsTrace cs (hand.erase c) else (hand, false)

/-- C10: `Player.remove_cards` is not atomic on failure.  When some card of
the list is absent from the hand, the call fails (`CardNotInHand`) at the
first card that is missing when its turn comes, and at that point every
card of the list before that one has already been removed: the final hand
is the original hand minus exactly the preceding cards. -/
theorem removeCards_partial (cards hand : List Card)
    (h : ∃ c ∈ cards, c ∉ hand) :
    removeCards cards hand = none ∧
    ∃ pre c rest, cards = pre ++ c :: rest ∧
      (removeCardsTrace pre hand).2 = true ∧
      c ∉ (removeCardsTrace pre hand).1 ∧
      removeCardsTrace cards hand = ((removeCardsTrace pre hand).1, false) ∧
      (∀ x, (removeCardsTrace pre hand).1.count x = hand.count x - pre.count x) ∧
      (removeCardsTrace pre hand).1.length = hand.length - pre.length := by
  induction cards generalizing hand with
  | nil =>
    rcases h with ⟨c, hc, _⟩
    simp at hc
  | cons c cs ih =>
    by_cases hc : c ∈ hand
    · obtain ⟨d, hd, hdh⟩ := h
      have hdcs : d ∈ cs := by
        rcases List.mem_cons.mp hd with rfl | h' <;> [exact absurd hc hdh; exact h']
      have hd' : d ∉ hand.erase c := fun hmem => hdh (List.mem_of_mem_erase hmem)
      obtain ⟨hnone, pre, c', rest, hsplit, htr, hnotin, heq, hcount, hlen⟩ :=
        ih (hand.erase c) ⟨d, hdcs, hd'⟩
      have hred : removeCardsTrace (c :: pre) hand = removeCardsTrace pre (hand.erase c) := by
        simp [removeCardsTrace, hc]
      refine ⟨?_, c :: pre, c', rest, by simp [hsplit], ?_, ?_, ?_, ?_, ?_⟩
      · simpa [removeCards, hc] using hnone
      · rw [hred]; exact htr
      · rw [hred]; exact hnotin
      · have : removeCardsTrace (c :: cs) hand = removeCardsTrace cs (hand.erase c) := by
          simp [removeCardsTrace, hc]
        rw [this, hred]; exact heq
      · intro x
        rw [hred, hcount x, List.count_erase, List.count_cons]
        by_cases hcx : c = x
        · subst hcx; simp; omega
        · simp [hcx, Ne.symm hcx]
      · rw [hred, hlen, List.length_erase_of_mem hc]
        simp; omega
    · refine ⟨?_, [], c, cs, rfl, rfl, ?_, ?_, ?_, ?_⟩
      · simp [removeCards, hc]
      · simpa [removeCardsTrace] using hc
      · simp [removeCardsTrace, hc]
      · intro x; simp [removeCardsTrace]
      · simp [removeCardsTrace]

/-- Witness for C10: removing [3♣, 5♣, 4♣] from the hand [3♣, 4♣] fails at
5♣ with the 3♣ already gone. -/
theorem removeCards_partial_witness :
    removeCards [⟨.clubs, .three⟩, ⟨.clubs, .five⟩, ⟨.clubs, .four⟩]
        [⟨.clubs, .three⟩, ⟨.clubs, .four⟩] = none ∧
    ∃ pre c rest,
      ([⟨.clubs, .three⟩, ⟨.clubs, .five⟩, ⟨.clubs, .four⟩] : List Card) =
        pre ++ c :: rest ∧
      (removeCardsTrace pre [⟨.clubs, .three⟩, ⟨.clubs, .four⟩]).2 = true ∧
      c ∉ (removeCardsTrace pre [⟨.clubs, .three⟩, ⟨.clubs, .four⟩]).1 ∧
      removeCardsTrace [⟨.clubs, .three⟩, ⟨.clubs, .five⟩, ⟨.clubs, .four⟩]
          [⟨.clubs, .three⟩, ⟨.clubs, .four⟩] =
        ((removeCardsTrace pre [⟨.clubs, .three⟩, ⟨.clubs, .four⟩]).1, false) ∧
      (∀ x, (removeCardsTrace pre [⟨.clubs, .three⟩, ⟨.clubs, .four⟩]).1.count x =
        List.count x [⟨.clubs, .three⟩, ⟨.clubs, .four⟩] - pre.count x) ∧
      (removeCardsTrace pre [⟨.clubs, .three⟩, ⟨.clubs, .four⟩]).1.length =
        (2 : Nat) - pre.length :=
  removeCards_partial [⟨.clubs, .three⟩, ⟨.clubs, .five⟩, ⟨.clubs, .four⟩]
    [⟨.clubs, .three⟩, ⟨.clubs, .four⟩] (by decide)

/-- The test `threes == [t]` with `t` the 3♠ in `Player.sort_hand`: the
hand's only Three is the 3 of Spades. -/
def loneSpadeThree (hand : List Card) : Bool :=
  match hand.filter (fun c => c.rank == Rank.three) with
  | [t] => t.isThreeOfSpades
  | _ => false

theorem sortHand_eq_sortByValue (hand : List Card)
    (h : loneSpadeThree hand = false) : sortHand hand = sortByValue hand := by
  unfold sortHand
  split
  · rename_i t heq
    have ht : t.isThreeOfSpades = false := by
      unfold loneSpadeThree at h
      rw [heq] at h
      exact h
    simp [ht]
  · rfl

/-- `res` consists of cards of `hand` (as a sub-multiset) and every card of
`hand` not taken into `res` has value at most that of every card of `res`:
`res` is a choice of greatest-value cards of the hand. -/
def isStrongestCards (res hand : List Card) : Prop :=
  (∀ c ∈ res, res.count c ≤ hand.count c) ∧
  (∀ c ∈ res, ∀ d ∈ hand, res.count d < hand.count d → d.getValue ≤ c.getValue)

instance (res hand : List Card) : Decidable (isStrongestCards res hand) := by
  unfold isStrongestCards
  infer_instance

/-- C5 counterexample: on the hand [3♠, K♣] (a lone 3♠ as the only Three),
`choose_cards_to_give(1)` returns [3♠] — value 0, not the greatest-value
card — because `sort_hand` moves a lone 3♠ to the end of the hand. -/
theorem chooseCardsToGive_not_greatest :
    chooseCardsToGive [⟨.spades, .three⟩, ⟨.clubs, .king⟩] 1 =
      some ([⟨.spades, .three⟩], [⟨.clubs, .king⟩, ⟨.spades, .three⟩]) ∧
    ¬ isStrongestCards [⟨.spades, .three⟩]
        [⟨.spades, .three⟩, ⟨.clubs, .king⟩] := by
  constructor
  · rfl
  · decide

/-- C5 amended: `choose_cards_to_give(num)` fails exactly when `num` exceeds
the hand size; for `1 ≤ num` it returns the last `num` cards of the hand as
reordered by `sort_hand`, which are `num` greatest-value cards of the hand
whenever the hand's Threes are not exactly one lone 3♠; `num = 0` returns
the entire (sorted) hand. -/
theorem chooseCardsToGive_spec (hand : List Card) (num : Nat) :
    (chooseCardsToGive hand num = none ↔ hand.length < num) ∧
    (∀ res sorted, chooseCardsToGive hand num = some (res, sorted) →
      (num = 0 → res.length = hand.length) ∧
      (1 ≤ num → res.length = num ∧
        (loneSpadeThree hand = false → isStrongestCards res hand))) := by
  constructor
  · unfold chooseCardsToGive
    split
    · simp_all
    · simp_all
  · intro res sorted hsome
    unfold chooseCardsToGive at hsome
    split at hsome
    · exact absurd hsome (by simp)
    · rename_i hlen
      push_neg at hlen
      obtain ⟨hres, hsorted⟩ : res = lastSlice (sortHand hand) num ∧
          sorted = sortHand hand := by
        have := hsome
        simp only [Option.some.injEq, Prod.mk.injEq] at this
        exact ⟨this.1.symm, this.2.symm⟩
      constructor
      · intro h0
        subst h0
        simp [hres, lastSlice, length_sortHand]
      · intro h1
        have hnum0 : num ≠ 0 := by omega
        have hslen : (sortHand hand).length = hand.length := length_sortHand hand
        have hreslen : res.length = num := by
          rw [hres, lastSlice, if_neg hnum0, List.length_drop, hslen]
          omega
        refine ⟨hreslen, ?_⟩
        intro hlone
        have hsv : sortHand hand = sortByValue hand := sortHand_eq_sortByValue hand hlone
        set s := sortByValue hand with hs
        set k := s.length - num with hk
        have hresdrop : res = s.drop k := by
          rw [hres, lastSlice, if_neg hnum0, hsv]
        have hperm : List.Perm s hand := perm_sortByValue hand
        have hsub : (s.drop k).Sublist s := List.drop_sublist k s
        constructor
        · intro c _
          rw [hresdrop]
          exact Nat.le_trans (hsub.count_le c) (Nat.le_of_eq (hperm.count_eq c))
        · intro c hc d _ hcount
          have hcnt_s : s.count d = (s.take k).count d + (s.drop k).count d := by
            conv_lhs => rw [← List.take_append_drop k s]
            exact List.count_append d _ _
          have hdtake : d ∈ s.take k := by
            have h1 : (s.drop k).count d < s.count d := by
              rw [hperm.count_eq d, ← hresdrop]
              exact hcount
            have : 0 < (s.take k).count d := by omega
            exact List.count_pos_iff.mp this
          have hpw : ∀ a ∈ s.take k, ∀ b ∈ s.drop k,
              a.getValue ≤ b.getValue := by
            have hsorted' : List.Pairwise (fun a b => a.getValue ≤ b.getValue) s :=
              sorted_sortByValue hand
            rw [← List.take_append_drop k s] at hsorted'
            exact (List.pairwise_append.mp hsorted').2.2
          exact hpw d hdtake c (hresdrop ▸ hc)

/-- Witness for C5 at a concrete hand with no lone 3♠: choosing 2 from
[3♣, 5♥, K♣, 2♦] yields 2 greatest-value cards. -/
theorem chooseCardsToGive_spec_witness :
    ∀ res sorted,
      chooseCardsToGive
        [⟨.clubs, .three⟩, ⟨.hearts, .five⟩, ⟨.clubs, .king⟩, ⟨.diamonds, .two⟩]
        2 = some (res, sorted) →
      res.length = 2 ∧ isStrongestCards res
        [⟨.clubs, .three⟩, ⟨.hearts, .five⟩, ⟨.clubs, .king⟩, ⟨.diamonds, .two⟩] := by
  intro res sorted hsome
  have h := ((chooseCardsToGive_spec
      [⟨.clubs, .three⟩, ⟨.hearts, .five⟩, ⟨.clubs, .king⟩, ⟨.diamonds, .two⟩]
      2).2 res sorted hsome).2 (by decide)
  exact ⟨h.1, h.2 (by decide)⟩

/-- Insertion-order deduplication, modelling the iteration order of the
Python dict `rank_groups` (keys appear in order of first occurrence). -/
def dedupRanks (seen : List Rank) : List Rank → List Rank
  | [] => []
  | r :: rs => if r ∈ seen then dedupRanks seen rs else r :: dedupRanks (r :: seen) rs

/-- The cards of `hand` of rank `r`, in hand order (`rank_groups[r]`). -/
def rankGroup (hand : List Card) (r : Rank) : List Card :=
  hand.filter (fun c => c.rank == r)

theorem mem_dedupRanks (r : Rank) (seen l : List Rank) :
    r ∈ dedupRanks seen l ↔ r ∈ l ∧ r ∉ seen := by
  induction l generalizing seen with
  | nil => simp [dedupRanks]
  | cons a l ih =>
    simp only [dedupRanks]
    split
    · rename_i ha
      rw [ih]
      constructor
      · rintro ⟨h1, h2⟩
        exact ⟨List.mem_cons_of_mem a h1, h2⟩
      · rintro ⟨h1, h2⟩
        rcases List.mem_cons.mp h1 with rfl | h1
        · exact absurd ha h2
        · exact ⟨h1, h2⟩
    · rename_i ha
      simp only [List.mem_cons, ih, List.mem_cons]
      constructor
      · rintro (rfl | ⟨h1, h2⟩)
        · exact ⟨Or.inl rfl, ha⟩
        · exact ⟨Or.inr h1, fun hs => h2 (Or.inr hs)⟩
      · rintro ⟨h1, h2⟩
        by_cases hra : r = a
        · exact Or.inl hra
        · rcases h1 with rfl | h1
          · exact absurd rfl hra
          · refine Or.inr ⟨h1, ?_⟩
            intro hs
            rcases hs with hs | hs
            · exact hra hs
            · exact h2 hs

theorem nodup_dedupRanks (seen l : List Rank) : (dedupRanks seen l).Nodup := by
  induction l generalizing seen with
  | nil => simp [dedupRanks]
  | cons a l ih =>
    simp only [dedupRanks]
    split
    · exact ih seen
    · refine List.nodup_cons.mpr ⟨?_, ih (a :: seen)⟩
      intro hmem
      exact ((mem_dedupRanks a (a :: seen) l).mp hmem).2 (List.mem_cons_self a seen)

/-- The plays contributed by one rank group in
`Player._get_all_possible_plays`: one single, plus a pair/triple/quad when
the group is large enough. -/
def playsOfGroup (cards : List Card) : List (List Card) :=
  match cards with
  | [] => []
  | c :: _ =>
      [[c]] ++ (if 2 ≤ cards.length then [cards.take 2] else [])
            ++ (if 3 ≤ cards.length then [cards.take 3] else [])
            ++ (if cards.length = 4 then [cards] else [])

/-- `Player._get_all_possible_plays` (`src/player.py` lines 90–123). -/
def getAllPossiblePlays (hand : List Card) : List (List Card) :=
  (dedupRanks [] (hand.map (fun c => c.rank))).flatMap
    (fun r => playsOfGroup (rankGroup hand r))

/-- `Player._get_plays_that_beat` (`src/player.py` lines 125–169): nothing
beats a single 3♠; a held 3♠ is the sole answer to any other single;
otherwise one candidate per rank strictly above the current value with
enough cards, taking the first `num_cards_needed` cards of the group. -/
def getPlaysThatBeat (hand : List Card) (currentPlay : Play) : List (List Card) :=
  let numNeeded := currentPlay.cards.length
  let currentValue := currentPlay.rank.value
  if currentPlay.isSingleThreeSpades then []
  else if numNeeded = 1 ∧ (hand.find? (fun c => c.isThreeOfSpades)).isSome then
    match hand.find? (fun c => c.isThreeOfSpades) with
    | some c => [[c]]
    | none => []
  else
    (dedupRanks [] (hand.map (fun c => c.rank))).filterMap (fun r =>
      if currentValue < r.value ∧ numNeeded ≤ (rankGroup hand r).length then
        some ((rankGroup hand r).take numNeeded)
      else none)

/-- `Player.get_valid_plays` (`src/player.py` lines 74–88): dispatch on
whether there is a current play to beat. -/
def getValidPlays (hand : List Card) (currentPlay : Option Play) : List (List Card) :=
  match currentPlay with
  | none => getAllPossiblePlays hand
  | some p => getPlaysThatBeat hand p

/-- The rank of the first card of a candidate play. -/
def headRank? (xs : List Card) : Option Rank := xs.head?.map (fun c => c.rank)

theorem headRank?_take_group (hand : List Card) (r : Rank) (n : Nat)
    (h1 : 1 ≤ n) (h2 : n ≤ (rankGroup hand r).length) :
    headRank? ((rankGroup hand r).take n) = some r := by
  match hgr : rankGroup hand r with
  | [] => rw [hgr] at h2; simp at h2; omega
  | c :: t =>
    have hc : c.rank = r := by
      have hmem : c ∈ rankGroup hand r := by
        rw [hgr]; exact List.mem_cons_self c t
      have := (List.mem_filter.mp hmem).2
      simpa using this
    match n with
    | 0 => omega
    | m + 1 => simp [headRank?, List.take_succ_cons, hc]

theorem countP_filterMap_dedup (ks : List Rank) (hnd : ks.Nodup)
    (P : Rank → Prop) [DecidablePred P] (G : Rank → List Card) (r : Rank)
    (hG : ∀ r', P r' → headRank? (G r') = some r') :
    ((ks.filterMap (fun r' => if P r' then some (G r') else none)).countP
      (fun xs => headRank? xs == some r)) =
    if r ∈ ks ∧ P r then 1 else 0 := by
  induction ks with
  | nil => simp
  | cons a ks ih =>
    rcases List.nodup_cons.mp hnd with ⟨hna, hnd'⟩
    by_cases hPa : P a
    · have hstep : List.filterMap (fun r' => if P r' then some (G r') else none) (a :: ks)
          = G a :: List.filterMap (fun r' => if P r' then some (G r') else none) ks := by
        simp [List.filterMap_cons, hPa]
      rw [hstep, List.countP_cons]
      rw [ih hnd']
      by_cases hra : a = r
      · subst hra
        have : headRank? (G a) == some a := by rw [hG a hPa]; simp
        simp [this, hPa, hna]
      · have hGa : (headRank? (G a) == some r) = false := by
          rw [hG a hPa]
          simpa using fun h => hra h
        simp only [hGa, Bool.false_eq_true, if_false]
        have : (r ∈ a :: ks ∧ P r) ↔ (r ∈ ks ∧ P r) := by
          constructor
          · rintro ⟨h1, h2⟩
            rcases List.mem_cons.mp h1 with rfl | h1
            · exact absurd rfl hra
            · exact ⟨h1, h2⟩
          · rintro ⟨h1, h2⟩
            exact ⟨List.mem_cons_of_mem a h1, h2⟩
        simp only [this]
        omega
    · have hstep : List.filterMap (fun r' => if P r' then some (G r') else none) (a :: ks)
          = List.filterMap (fun r' => if P r' then some (G r') else none) ks := by
        simp [List.filterMap_cons, hPa]
      rw [hstep, ih hnd']
      have : (r ∈ a :: ks ∧ P r) ↔ (r ∈ ks ∧ P r) := by
        constructor
        · rintro ⟨h1, h2⟩
          rcases List.mem_cons.mp h1 with rfl | h1
          · exact absurd h2 hPa
          · exact ⟨h1, h2⟩
        · rintro ⟨h1, h2⟩
          exact ⟨List.mem_cons_of_mem a h1, h2⟩
      simp only [this]

/-- Characterisation of the rank-loop of `_get_plays_that_beat`: one
candidate per rank of value above `v` with at least `n` cards in hand, each
candidate being the first `n` cards of that rank. -/
theorem filterMapPlays_spec (hand : List Card) (v n : Nat) (hn1 : 1 ≤ n) :
    (∀ xs ∈ (dedupRanks [] (hand.map (fun c => c.rank))).filterMap (fun r =>
        if v < r.value ∧ n ≤ (rankGroup hand r).length then
          some ((rankGroup hand r).take n) else none),
      xs.length = n ∧
      (∀ c, xs.count c ≤ hand.count c) ∧
      ∃ r, headRank? xs = some r ∧ (∀ c ∈ xs, c.rank = r) ∧
        v < r.value ∧ n ≤ (rankGroup hand r).length) ∧
    (∀ r : Rank, ((dedupRanks [] (hand.map (fun c => c.rank))).filterMap (fun r' =>
        if v < r'.value ∧ n ≤ (rankGroup hand r').length then
          some ((rankGroup hand r').take n) else none)).countP
        (fun xs => headRank? xs == some r) =
      if v < r.value ∧ n ≤ (rankGroup hand r).length then 1 else 0) ∧
    ((dedupRanks [] (hand.map (fun c => c.rank))).filterMap (fun r =>
        if v < r.value ∧ n ≤ (rankGroup hand r).length then
          some ((rankGroup hand r).take n) else none) = [] ↔
      ∀ r : Rank, ¬(v < r.value ∧ n ≤ (rankGroup hand r).length)) := by
  have hPks : ∀ r : Rank, v < r.value ∧ n ≤ (rankGroup hand r).length →
      r ∈ dedupRanks [] (hand.map (fun c => c.rank)) := by
    rintro r ⟨_, hlen⟩
    have hpos : 0 < (rankGroup hand r).length := Nat.lt_of_lt_of_le hn1 hlen
    obtain ⟨c, hcmem⟩ := List.exists_mem_of_length_pos hpos
    have hch : c ∈ hand := List.mem_of_mem_filter hcmem
    have hcr : c.rank = r := by simpa using (List.mem_filter.mp hcmem).2
    refine (mem_dedupRanks r [] _).mpr ⟨?_, List.not_mem_nil r⟩
    exact List.mem_map.mpr ⟨c, hch, hcr⟩
  refine ⟨?_, ?_, ?_⟩
  · intro xs hxs
    obtain ⟨r', hr'mem, hr'eq⟩ := List.mem_filterMap.mp hxs
    by_cases hP : v < r'.value ∧ n ≤ (rankGroup hand r').length
    · rw [if_pos hP] at hr'eq
      obtain rfl : (rankGroup hand r').take n = xs := by
        simpa using hr'eq
      refine ⟨?_, ?_, r', ?_, ?_, hP.1, hP.2⟩
      · rw [List.length_take]
        exact Nat.min_eq_left hP.2
      · intro c
        have hsub : ((rankGroup hand r').take n).Sublist hand :=
          (List.take_sublist _ _).trans (List.filter_sublist hand)
        exact hsub.count_le c
      · exact headRank?_take_group hand r' n hn1 hP.2
      · intro c hc
        have := (List.mem_filter.mp (List.mem_of_mem_take hc)).2
        simpa using this
    · rw [if_neg hP] at hr'eq
      exact absurd hr'eq (by simp)
  · intro r
    rw [countP_filterMap_dedup _ (nodup_dedupRanks _ _) _ _ r
      (fun r' hP => headRank?_take_group hand r' n hn1 hP.2)]
    by_cases hP : v < r.value ∧ n ≤ (rankGroup hand r).length
    · simp [hP, hPks r hP]
    · simp [hP]
  · rw [List.filterMap_eq_nil_iff]
    constructor
    · intro hall r hP
      have := hall r (hPks r hP)
      rw [if_pos hP] at this
      exact absurd this (by simp)
    · intro hnone r' _
      rw [if_neg (hnone r')]

/-- C2: against a non-null current play, `get_valid_plays` returns nothing
when the current play is a single 3♠; returns exactly the singleton [3♠]
when the current play is a single and the hand holds the 3♠; and otherwise
returns exactly one candidate per rank of value strictly above the current
play's, for which the hand holds at least the current play's card count,
each candidate drawn from the hand with exactly that card count — the empty
list when no such rank exists. -/
theorem getValidPlays_beat_spec (hand : List Card) (cur : Play)
    (hne : cur.cards ≠ []) :
    (cur.isSingleThreeSpades = true → getValidPlays hand (some cur) = []) ∧
    (cur.isSingleThreeSpades = false → cur.cards.length = 1 →
      (∃ c ∈ hand, c.isThreeOfSpades = true) →
      getValidPlays hand (some cur) = [[threeOfSpades]]) ∧
    (cur.isSingleThreeSpades = false →
      ¬(cur.cards.length = 1 ∧ ∃ c ∈ hand, c.isThreeOfSpades = true) →
      (∀ xs ∈ getValidPlays hand (some cur),
          xs.length = cur.cards.length ∧
          (∀ c, xs.count c ≤ hand.count c) ∧
          ∃ r, headRank? xs = some r ∧ (∀ c ∈ xs, c.rank = r) ∧
            cur.rank.value < r.value ∧
            cur.cards.length ≤ (rankGroup hand r).length) ∧
      (∀ r : Rank, (getValidPlays hand (some cur)).countP
          (fun xs => headRank? xs == some r) =
        if cur.rank.value < r.value ∧
            cur.cards.length ≤ (rankGroup hand r).length then 1 else 0) ∧
      (getValidPlays hand (some cur) = [] ↔
        ∀ r : Rank, ¬(cur.rank.value < r.value ∧
          cur.cards.length ≤ (rankGroup hand r).length))) := by
  have hn1 : 1 ≤ cur.cards.length := List.length_pos.mpr hne
  refine ⟨?_, ?_, ?_⟩
  · intro h3
    simp [getValidPlays, getPlaysThatBeat, h3]
  · intro hns hlen1 h3h
    have hfind : (hand.find? (fun c => c.isThreeOfSpades)).isSome := by
      rw [List.find?_isSome]
      exact h3h
    obtain ⟨c, hc⟩ := Option.isSome_iff_exists.mp hfind
    have hceq : c = threeOfSpades := (isThreeOfSpades_iff c).mp (List.find?_some hc)
    subst hceq
    simp [getValidPlays, getPlaysThatBeat, hns, hlen1, hc]
  · intro hns hcond
    have hfalse : ¬(cur.cards.length = 1 ∧
        (hand.find? (fun c => c.isThreeOfSpades)).isSome = true) := by
      rintro ⟨h1, h2⟩
      apply hcond
      refine ⟨h1, ?_⟩
      obtain ⟨c, hc⟩ := Option.isSome_iff_exists.mp h2
      exact ⟨c, List.mem_of_find?_eq_some hc, List.find?_some hc⟩
    have hunfold : getValidPlays hand (some cur) =
        (dedupRanks [] (hand.map (fun c => c.rank))).filterMap (fun r =>
          if cur.rank.value < r.value ∧
              cur.cards.length ≤ (rankGroup hand r).length then
            some ((rankGroup hand r).take cur.cards.length)
          else none) := by
      simp only [getValidPlays, getPlaysThatBeat]
      rw [if_neg (by simp [hns]), if_neg hfalse]
    rw [hunfold]
    exact filterMapPlays_spec hand cur.rank.value cur.cards.length hn1

/-- Witness for C2, Scenario 4 of the spec: against a single 2♦ (the
highest value), a hand holding the 3♠ answers with exactly [[3♠]]. -/
theorem getValidPlays_beat_spec_witness :
    getValidPlays [⟨.spades, .three⟩, ⟨.hearts, .seven⟩]
      (some ⟨[⟨.diamonds, .two⟩], 1, .two⟩) = [[threeOfSpades]] :=
  (getValidPlays_beat_spec [⟨.spades, .three⟩, ⟨.hearts, .seven⟩]
      ⟨[⟨.diamonds, .two⟩], 1, .two⟩ (by decide)).2.1
    (by decide) (by decide) ⟨⟨.spades, .three⟩, by decide, by decide⟩

/-- `enumerate(self.cards)` starting at `start`: each card paired with its
position. -/
def withIdx (start : Nat) : List Card → List (Nat × Card)
  | [] => []
  | c :: cs => (start, c) :: withIdx (start + 1) cs

/-- `Deck.deal` (`src/card.py` lines 135–159): fails unless 3–8 players;
otherwise hand `k` receives, in order, the deck cards at positions
congruent to `k` modulo the player count. -/
def deal (deck : List Card) (numPlayers : Nat) : Option (List (List Card)) :=
  if 3 ≤ numPlayers ∧ numPlayers ≤ 8 then
    some ((List.range numPlayers).map (fun k =>
      ((withIdx 0 deck).filter (fun q => q.1 % numPlayers == k)).map Prod.snd))
  else none

theorem mem_withIdx_of_get (l : List Card) (s i : Nat) (h : i < l.length) :
    (s + i, l.get ⟨i, h⟩) ∈ withIdx s l := by
  induction l generalizing s i with
  | nil => simp at h
  | cons c cs ih =>
    match i with
    | 0 => simp [withIdx]
    | j + 1 =>
      have hj : j < cs.length := by simpa using h
      have := ih (s + 1) j hj
      simp only [withIdx, List.mem_cons]
      right
      have harith : s + 1 + j = s + (j + 1) := by omega
      rw [harith] at this
      exact this

theorem countP_withIdx_fst (l : List Card) (s : Nat) (f : Nat → Bool) :
    (withIdx s l).countP (fun q => f q.1) =
    (List.range' s l.length).countP f := by
  induction l generalizing s with
  | nil => simp [withIdx]
  | cons c cs ih =>
    rw [show (c :: cs).length = cs.length + 1 from rfl, List.range'_succ]
    simp only [withIdx, List.countP_cons, ih (s + 1)]

theorem countP_withIdx_snd (l : List Card) (s : Nat) (a : Card) :
    (withIdx s l).countP (fun q => q.2 == a) = l.count a := by
  induction l generalizing s with
  | nil => simp [withIdx]
  | cons c cs ih =>
    simp only [withIdx, List.countP_cons, ih (s + 1), List.count_cons]

theorem count_map_snd (u : List (Nat × Card)) (a : Card) :
    (u.map Prod.snd).count a = u.countP (fun q => q.2 == a) := by
  induction u with
  | nil => simp
  | cons p u ih =>
    simp only [List.map_cons, List.count_cons, List.countP_cons, ih]

theorem sum_map_add_distrib (ks : List Nat) (f g : Nat → Nat) :
    (ks.map (fun k => f k + g k)).sum = (ks.map f).sum + (ks.map g).sum := by
  induction ks with
  | nil => simp
  | cons k ks ih => simp [ih]; omega

theorem sum_map_indicator (ks : List Nat) (j : Nat) :
    (ks.map (fun k => if (j == k) = true then 1 else 0)).sum = ks.count j := by
  induction ks with
  | nil => simp
  | cons k ks ih =>
    simp only [List.map_cons, List.sum_cons, ih, List.count_cons]
    by_cases hk : j = k
    · subst hk; simp; omega
    · simp [hk, Ne.symm hk]

theorem sum_countP_mod (l : List (Nat × Card)) (nn : Nat) (hnn : 0 < nn)
    (a : Card) :
    ((List.range nn).map (fun k =>
      l.countP (fun q => q.1 % nn == k && q.2 == a))).sum =
    l.countP (fun q => q.2 == a) := by
  induction l with
  | nil =>
    simp only [List.countP_nil]
    apply List.sum_eq_zero
    intro x hx
    rcases List.mem_map.mp hx with ⟨k, _, rfl⟩
    rfl
  | cons p l ih =>
    simp only [List.countP_cons]
    have hsplit : ((List.range nn).map (fun k =>
        l.countP (fun q => q.1 % nn == k && q.2 == a) +
          if (p.1 % nn == k && p.2 == a) = true then 1 else 0)).sum =
        ((List.range nn).map (fun k =>
          l.countP (fun q => q.1 % nn == k && q.2 == a))).sum +
        ((List.range nn).map (fun k =>
          if (p.1 % nn == k && p.2 == a) = true then 1 else 0)).sum :=
      sum_map_add_distrib _ _ _
    rw [hsplit, ih]
    congr 1
    by_cases hpa : p.2 = a
    · have hb : (p.2 == a) = true := by simp [hpa]
      simp only [hb, Bool.and_true, if_pos rfl]
      have : ((List.range nn).map (fun k =>
          if (p.1 % nn == k) = true then 1 else 0)).sum =
          (List.range nn).count (p.1 % nn) := sum_map_indicator _ _
      rw [this]
      have hmem : p.1 % nn ∈ List.range nn :=
        List.mem_range.mpr (Nat.mod_lt _ hnn)
      exact List.count_eq_one_of_mem (List.nodup_range nn) hmem
    · have hb : (p.2 == a) = false := by simp [hpa]
      simp only [hb, Bool.and_false]
      simp

/-- C3: `deal` fails exactly when the player count is outside [3,8]; on a
full 52-card deck it deals card `i` (in deck order) to hand `i mod n`, the
hand sizes sum to 52, the hands together are a permutation of the deck with
52 distinct cards, and hand sizes differ by at most 1. -/
theorem deal_spec (deck : List Card) (n : Nat) :
    (deal deck n = none ↔ ¬(3 ≤ n ∧ n ≤ 8)) ∧
    (deck.Perm fullDeck → 3 ≤ n → n ≤ 8 →
      ∃ hands, deal deck n = some hands ∧
        hands.length = n ∧
        (∀ i (hi : i < deck.length), deck.get ⟨i, hi⟩ ∈ hands.getD (i % n) []) ∧
        (hands.map List.length).sum = 52 ∧
        hands.flatten.Perm deck ∧
        hands.flatten.Nodup ∧
        (∀ s₁ ∈ hands.map List.length, ∀ s₂ ∈ hands.map List.length,
          s₁ - s₂ ≤ 1)) := by
  constructor
  · unfold deal
    split <;> simp_all
  · intro hperm h3 h8
    have hn0 : 0 < n := by omega
    have hdeck : deck.length = 52 := by
      rw [hperm.length_eq]
      decide
    refine ⟨(List.range n).map (fun k =>
      ((withIdx 0 deck).filter (fun q => q.1 % n == k)).map Prod.snd),
      ?_, by simp, ?_, ?_, ?_, ?_, ?_⟩
    · unfold deal
      rw [if_pos ⟨h3, h8⟩]
    · -- placement: card i lands in hand i % n
      intro i hi
      have hj : i % n < n := Nat.mod_lt _ hn0
      have hjlen : i % n < ((List.range n).map (fun k =>
          ((withIdx 0 deck).filter (fun q => q.1 % n == k)).map Prod.snd)).length := by
        simpa using hj
      rw [List.getD_eq_getElem _ _ hjlen]
      rw [List.getElem_map, List.getElem_range]
      have hpair : (i, deck.get ⟨i, hi⟩) ∈ withIdx 0 deck := by
        have := mem_withIdx_of_get deck 0 i hi
        simpa using this
      refine List.mem_map.mpr ⟨(i, deck.get ⟨i, hi⟩), ?_, rfl⟩
      exact List.mem_filter.mpr ⟨hpair, by simp⟩
    all_goals
      have hjoin : ((List.range n).map (fun k =>
          ((withIdx 0 deck).filter (fun q => q.1 % n == k)).map
            Prod.snd)).flatten.Perm deck := by
        rw [List.perm_iff_count]
        intro a
        rw [List.count_flatten, List.map_map]
        have hpt : ∀ k, (List.count a ∘ fun k =>
            ((withIdx 0 deck).filter (fun q => q.1 % n == k)).map Prod.snd) k =
            (withIdx 0 deck).countP (fun q => q.1 % n == k && q.2 == a) := by
          intro k
          show (((withIdx 0 deck).filter (fun q => q.1 % n == k)).map
            Prod.snd).count a = _
          rw [count_map_snd, List.countP_filter]
          apply List.countP_congr
          intro q _
          rw [Bool.and_comm]
        rw [List.map_congr_left (fun k _ => hpt k)]
        rw [sum_countP_mod _ n hn0 a, countP_withIdx_snd]
    · -- hand sizes sum to 52
      have hlen := hjoin.length_eq
      rw [List.length_flatten] at hlen
      rw [hlen, hdeck]
    · exact hjoin
    · -- no duplicates among dealt cards
      exact (hjoin.trans hperm).nodup_iff.mpr (by decide)
    · -- hand sizes differ by at most 1
      have hsizes : ((List.range n).map (fun k =>
          ((withIdx 0 deck).filter (fun q => q.1 % n == k)).map
            Prod.snd)).map List.length =
          (List.range n).map (fun k =>
            (List.range 52).countP (fun i => i % n == k)) := by
        rw [List.map_map]
        apply List.map_congr_left
        intro k _
        show (((withIdx 0 deck).filter (fun q => q.1 % n == k)).map
          Prod.snd).length = _
        rw [List.length_map, ← List.countP_eq_length_filter]
        have h1 : List.countP (fun q => q.1 % n == k) (withIdx 0 deck) =
            List.countP (fun i => i % n == k) (List.range' 0 deck.length) :=
          countP_withIdx_fst deck 0 (fun i => i % n == k)
        rw [h1, hdeck, ← List.range_eq_range']
      rw [hsizes]
      interval_cases n <;> decide

/-- Witness for C3: dealing the canonical full deck to 3 players. -/
theorem deal_spec_witness :
    ∃ hands, deal fullDeck 3 = some hands ∧
      hands.length = 3 ∧
      (∀ i (hi : i < fullDeck.length),
        fullDeck.get ⟨i, hi⟩ ∈ hands.getD (i % 3) []) ∧
      (hands.map List.length).sum = 52 ∧
      hands.flatten.Perm fullDeck ∧
      hands.flatten.Nodup ∧
      (∀ s₁ ∈ hands.map List.length, ∀ s₂ ∈ hands.map List.length,
        s₁ - s₂ ≤ 1) :=
  (deal_spec fullDeck 3).2 (List.Perm.refl fullDeck) (by decide) (by decide)

/-- The social rank labels stored in `Player.rank` (`None` at start,
strings afterwards). -/
inductive Label where
  | unset | president | vicePresident | neutral | viceScum | scum
deriving DecidableEq, Repr

/-- One assignment `player.rank = lab`, as a functional update of the
rank map indexed by player id. -/
def setRank (pid : Nat) (lab : Label) (rank : Nat → Label) : Nat → Label :=
  fun q => if q = pid then lab else rank q

/-- `Game.assign_ranks` (`src/game.py` lines 253–277): no-op with fewer
than 2 finishers; otherwise clear every roster member to Neutral, then
assign President to `finished[0]`, Scum to `finished[-1]`, and — when the
roster has at least 4 players — Vice-President to `finished[1]` and
Vice-Scum to `finished[-2]`, in that order of assignment. -/
def assignRanks (players finished : List Nat) (rank : Nat → Label) :
    Nat → Label :=
  if finished.length < 2 then rank
  else
    let cleared := fun q => if q ∈ players then Label.neutral else rank q
    let r1 := setRank (finished.getD 0 0) Label.president cleared
    let r2 := setRank (finished.getD (finished.length - 1) 0) Label.scum r1
    if 4 ≤ players.length then
      let r3 := setRank (finished.getD 1 0) Label.vicePresident r2
      setRank (finished.getD (finished.length - 2) 0) Label.viceScum r3
    else r2

theorem getD_ne_of_nodup (l : List Nat) (hnd : l.Nodup) (i j : Nat)
    (hi : i < l.length) (hj : j < l.length) (hij : i ≠ j) :
    l.getD i 0 ≠ l.getD j 0 := by
  rw [List.getD_eq_getElem _ _ hi, List.getD_eq_getElem _ _ hj]
  intro h
  exact hij ((List.Nodup.getElem_inj_iff hnd).mp h)

/-- C4 counterexample: with a 4-player roster and only 2 recorded
finishers, the sequential overwrites make the first finisher end up as
Vice-Scum, not President. -/
theorem assignRanks_two_finishers_four_players :
    assignRanks [0, 1, 2, 3] [0, 1] (fun _ => Label.unset) 0 = Label.viceScum ∧
    assignRanks [0, 1, 2, 3] [0, 1] (fun _ => Label.unset) 0 ≠
      Label.president := by
  constructor
  · rfl
  · decide

/-- C4 amended: provided the recorded finishers are pairwise distinct
and — when the roster has at least 4 players — at least 4 finishers are
recorded, `assign_ranks` is a no-op for fewer than 2 finishers, and
otherwise makes the first finisher President, the last Scum, the second
Vice-President and the second-to-last Vice-Scum exactly when the roster
has at least 4 players, with every other roster member Neutral. -/
theorem assignRanks_spec (players finished : List Nat) (rank : Nat → Label)
    (hnd : finished.Nodup)
    (hlen4 : 4 ≤ players.length → 4 ≤ finished.length) :
    (finished.length < 2 → ∀ q, assignRanks players finished rank q = rank q) ∧
    (2 ≤ finished.length →
      assignRanks players finished rank (finished.getD 0 0) = Label.president ∧
      assignRanks players finished rank
        (finished.getD (finished.length - 1) 0) = Label.scum ∧
      (4 ≤ players.length →
        assignRanks players finished rank (finished.getD 1 0) =
          Label.vicePresident ∧
        assignRanks players finished rank
          (finished.getD (finished.length - 2) 0) = Label.viceScum) ∧
      (players.length < 4 → ∀ q ∈ players,
        assignRanks players finished rank q ≠ Label.vicePresident ∧
        assignRanks players finished rank q ≠ Label.viceScum) ∧
      (∀ q ∈ players, q ≠ finished.getD 0 0 →
        q ≠ finished.getD (finished.length - 1) 0 →
        (4 ≤ players.length → q ≠ finished.getD 1 0 ∧
          q ≠ finished.getD (finished.length - 2) 0) →
        assignRanks players finished rank q = Label.neutral)) := by
  constructor
  · intro hlt q
    simp [assignRanks, hlt]
  · intro h2
    have hnlt : ¬ finished.length < 2 := by omega
    have h0 : 0 < finished.length := by omega
    have hl1 : finished.length - 1 < finished.length := by omega
    constructor
    · -- first finisher is President
      by_cases h4 : 4 ≤ players.length
      · have hf4 : 4 ≤ finished.length := hlen4 h4
        have hne1 : finished.getD 0 0 ≠ finished.getD (finished.length - 2) 0 :=
          getD_ne_of_nodup finished hnd 0 (finished.length - 2) h0
            (by omega) (by omega)
        have hne2 : finished.getD 0 0 ≠ finished.getD 1 0 :=
          getD_ne_of_nodup finished hnd 0 1 h0 (by omega) (by omega)
        have hne3 : finished.getD 0 0 ≠ finished.getD (finished.length - 1) 0 :=
          getD_ne_of_nodup finished hnd 0 (finished.length - 1) h0 hl1
            (by omega)
        simp only [List.getD_eq_getElem?_getD] at hne1 hne2 hne3
        simp [assignRanks, hnlt, h4, setRank, hne1, hne2, hne3]
      · have hne3 : finished.getD 0 0 ≠ finished.getD (finished.length - 1) 0 :=
          getD_ne_of_nodup finished hnd 0 (finished.length - 1) h0 hl1
            (by omega)
        simp only [List.getD_eq_getElem?_getD] at hne3
        simp [assignRanks, hnlt, h4, setRank, hne3]
    constructor
    · -- last finisher is Scum
      by_cases h4 : 4 ≤ players.length
      · have hf4 : 4 ≤ finished.length := hlen4 h4
        have hne1 : finished.getD (finished.length - 1) 0 ≠
            finished.getD (finished.length - 2) 0 :=
          getD_ne_of_nodup finished hnd (finished.length - 1)
            (finished.length - 2) hl1 (by omega) (by omega)
        have hne2 : finished.getD (finished.length - 1) 0 ≠
            finished.getD 1 0 :=
          getD_ne_of_nodup finished hnd (finished.length - 1) 1 hl1
            (by omega) (by omega)
        simp only [List.getD_eq_getElem?_getD] at hne1 hne2
        simp [assignRanks, hnlt, h4, setRank, hne1, hne2]
      · simp [assignRanks, hnlt, h4, setRank]
    constructor
    · -- second finisher VP, second-to-last VS (4+ players)
      intro h4
      have hf4 : 4 ≤ finished.length := hlen4 h4
      have hne1 : finished.getD 1 0 ≠ finished.getD (finished.length - 2) 0 :=
        getD_ne_of_nodup finished hnd 1 (finished.length - 2) (by omega)
          (by omega) (by omega)
      simp only [List.getD_eq_getElem?_getD] at hne1
      constructor
      · simp [assignRanks, hnlt, h4, setRank, hne1]
      · simp [assignRanks, hnlt, h4, setRank]
    constructor
    · -- fewer than 4 players: no Vice ranks among roster members
      intro h4 q hq
      have hnge : ¬ 4 ≤ players.length := by omega
      by_cases hq1 : q = finished.getD (finished.length - 1) 0
      · simp only [List.getD_eq_getElem?_getD] at hq1
        simp [assignRanks, hnlt, hnge, setRank, hq1]
      · by_cases hq0 : q = finished.getD 0 0
        · simp only [List.getD_eq_getElem?_getD] at hq0 hq1
          have hne : ¬ finished[0]?.getD 0 =
              finished[finished.length - 1]?.getD 0 := by
            rw [← hq0]; exact hq1
          simp [assignRanks, hnlt, hnge, setRank, hq0, hq1, hne]
        · simp only [List.getD_eq_getElem?_getD] at hq0 hq1
          simp [assignRanks, hnlt, hnge, setRank, hq0, hq1, hq]
    · -- everyone else is Neutral
      intro q hq hq0 hql hvice
      simp only [List.getD_eq_getElem?_getD] at hq0 hql
      by_cases h4 : 4 ≤ players.length
      · obtain ⟨hq1, hqp⟩ := hvice h4
        simp only [List.getD_eq_getElem?_getD] at hq1 hqp
        simp [assignRanks, hnlt, h4, setRank, hq0, hql, hq1, hqp, hq]
      · simp [assignRanks, hnlt, h4, setRank, hq0, hql, hq]

/-- Witness for C4: 4 players finishing in order [0,1,2,3] get
President, Vice-President, Vice-Scum, Scum (Scenario 2), and with a
3-player roster finishing [0,1,2] the middle finisher is Neutral
(Scenario 1). -/
theorem assignRanks_spec_witness :
    (assignRanks [0, 1, 2, 3] [0, 1, 2, 3] (fun _ => Label.unset) 0 =
      Label.president ∧
    assignRanks [0, 1, 2, 3] [0, 1, 2, 3] (fun _ => Label.unset) 1 =
      Label.vicePresident ∧
    assignRanks [0, 1, 2, 3] [0, 1, 2, 3] (fun _ => Label.unset) 2 =
      Label.viceScum ∧
    assignRanks [0, 1, 2, 3] [0, 1, 2, 3] (fun _ => Label.unset) 3 =
      Label.scum) ∧
    (assignRanks [0, 1, 2] [0, 1, 2] (fun _ => Label.unset) 0 =
      Label.president ∧
    assignRanks [0, 1, 2] [0, 1, 2] (fun _ => Label.unset) 1 =
      Label.neutral ∧
    assignRanks [0, 1, 2] [0, 1, 2] (fun _ => Label.unset) 2 =
      Label.scum) := by
  constructor
  · have h := (assignRanks_spec [0, 1, 2, 3] [0, 1, 2, 3]
      (fun _ => Label.unset) (by decide) (fun _ => by decide)).2
      (by decide)
    exact ⟨h.1, (h.2.2.1 (by decide)).1, (h.2.2.1 (by decide)).2, h.2.1⟩
  · have h := (assignRanks_spec [0, 1, 2] [0, 1, 2]
      (fun _ => Label.unset) (by decide)
      (fun hc => absurd hc (by decide))).2 (by decide)
    refine ⟨h.1, ?_, h.2.1⟩
    exact h.2.2.2.2 1 (by decide) (by decide) (by decide)
      (fun hc => absurd hc (by decide))

/-- A player as seen by a `Trick`: identity, the per-trick pass flag and
the hand (`Player` in `src/player.py`, the fields `can_play` reads). -/
structure TPlayer where
  pid : Nat
  hasPassed : Bool
  hand : List Card
deriving DecidableEq, Repr

/-- A trick (`Trick` in `src/trick.py`): the active participants, the log
of plays and the current (highest) play. -/
structure Trick where
  activePlayers : List TPlayer
  plays : List Play
  currentPlay : Option Play
deriving Repr

/-- `Trick.is_complete` (`src/trick.py` lines 185–203): false before any
play; afterwards true iff at most one active participant has not passed. -/
def Trick.isComplete (t : Trick) : Bool :=
  match t.currentPlay with
  | none => false
  | some _ => (t.activePlayers.countP (fun p => !p.hasPassed)) ≤ 1

/-- `Trick.get_winner` (`src/trick.py` lines 205–218): none unless
complete, otherwise the player of the current play. -/
def Trick.getWinner (t : Trick) : Option Nat :=
  if ¬ t.isComplete then none
  else
    match t.currentPlay with
    | none => none
    | some pl => some pl.player

/-- The state invariant relating the play log to the current play:
`add_play` sets both together, so the log is empty exactly when no current
play exists. -/
def Trick.logConsistent (t : Trick) : Prop :=
  t.plays = [] ↔ t.currentPlay = none

/-- C7: `is_complete` is false while no play has been made; once a play
has been made it is true iff at most one active participant has not
passed; `get_winner` is none whenever the trick is not complete, and
otherwise is the player who made the current (highest) play. -/
theorem trick_complete_winner_spec (t : Trick) (hw : t.logConsistent) :
    (t.plays = [] → t.isComplete = false) ∧
    (t.plays ≠ [] →
      (t.isComplete = true ↔
        t.activePlayers.countP (fun p => !p.hasPassed) ≤ 1)) ∧
    (t.isComplete = false → t.getWinner = none) ∧
    (t.isComplete = true →
      ∃ pl, t.currentPlay = some pl ∧ t.getWinner = some pl.player) := by
  refine ⟨?_, ?_, ?_, ?_⟩
  · intro hnil
    have hnone : t.currentPlay = none := hw.mp hnil
    simp [Trick.isComplete, hnone]
  · intro hne
    have hsome : t.currentPlay ≠ none := fun h => hne (hw.mpr h)
    obtain ⟨pl, hpl⟩ := Option.ne_none_iff_exists'.mp hsome
    simp [Trick.isComplete, hpl]
  · intro hnc
    simp [Trick.getWinner, hnc]
  · intro hc
    have hsome : t.currentPlay ≠ none := by
      intro h
      rw [Trick.isComplete, h] at hc
      exact absurd hc (by simp)
    obtain ⟨pl, hpl⟩ := Option.ne_none_iff_exists'.mp hsome
    exact ⟨pl, hpl, by simp [Trick.getWinner, hc, hpl]⟩

/-- Witness for C7 at a concrete trick: one non-passed player left after
a play, so the trick is complete and won by the current play's owner. -/
theorem trick_complete_winner_spec_witness :
    (Trick.isComplete ⟨[⟨0, true, []⟩, ⟨1, false, [⟨.clubs, .five⟩]⟩],
      [⟨[⟨.clubs, .four⟩], 1, .four⟩], some ⟨[⟨.clubs, .four⟩], 1, .four⟩⟩) =
      true ∧
    (Trick.getWinner ⟨[⟨0, true, []⟩, ⟨1, false, [⟨.clubs, .five⟩]⟩],
      [⟨[⟨.clubs, .four⟩], 1, .four⟩], some ⟨[⟨.clubs, .four⟩], 1, .four⟩⟩) =
      some 1 := by
  have h := (trick_complete_winner_spec
    ⟨[⟨0, true, []⟩, ⟨1, false, [⟨.clubs, .five⟩]⟩],
      [⟨[⟨.clubs, .four⟩], 1, .four⟩], some ⟨[⟨.clubs, .four⟩], 1, .four⟩⟩
    (by constructor <;> intro h <;> simp_all)).2.1 (by simp)
  refine ⟨h.mpr (by decide), ?_⟩
  have h2 := (trick_complete_winner_spec
    ⟨[⟨0, true, []⟩, ⟨1, false, [⟨.clubs, .five⟩]⟩],
      [⟨[⟨.clubs, .four⟩], 1, .four⟩], some ⟨[⟨.clubs, .four⟩], 1, .four⟩⟩
    (by constructor <;> intro h <;> simp_all)).2.2.2 (h.mpr (by decide))
  obtain ⟨pl, hpl, hwin⟩ := h2
  have : pl = ⟨[⟨.clubs, .four⟩], 1, .four⟩ := by
    have := hpl
    simp only [Option.some.injEq] at this
    exact this.symm
  rw [hwin, this]

/-- `Trick.can_play` (`src/trick.py` lines 129–169), with every Python
operation that can raise made explicit in `Except`: the unguarded
`cards[0]` access would be an `IndexError`, and the `Play` construction
inside the `try` block is `mkPlay`, whose `ValueError` is caught and
turned into `False` exactly as the source's `except ValueError` does. -/
def Trick.canPlayE (t : Trick) (player : TPlayer) (cards : List Card) :
    Except String Bool :=
  if player.hasPassed then Except.ok false
  else if player ∉ t.activePlayers then Except.ok false
  else if cards.isEmpty then Except.ok false
  else
    match cards.head? with
    | none => Except.error "IndexError"
    | some c0 =>
      if !(cards.all (fun c => c.rank == c0.rank)) then Except.ok false
      else if !(cards.all (fun c => player.hand.contains c)) then Except.ok false
      else
        match t.currentPlay with
        | none => Except.ok true
        | some cur =>
          match mkPlay cards player.pid with
          | Except.error _ => Except.ok false
          | Except.ok tp => Except.ok (tp.beats cur)

/-- C9: `can_play` always returns a boolean and never propagates an
exception; in particular an empty card list, a mixed-rank list, or a list
with a card absent from the player's hand yields `False`, not an error. -/
theorem canPlayE_spec (t : Trick) (p : TPlayer) (cards : List Card) :
    (∃ b, Trick.canPlayE t p cards = Except.ok b) ∧
    (cards = [] → Trick.canPlayE t p cards = Except.ok false) ∧
    ((∃ c ∈ cards, ∃ d ∈ cards, c.rank ≠ d.rank) →
      Trick.canPlayE t p cards = Except.ok false) ∧
    ((∃ c ∈ cards, c ∉ p.hand) →
      Trick.canPlayE t p cards = Except.ok false) := by
  by_cases hp : p.hasPassed
  · exact ⟨⟨false, by simp [Trick.canPlayE, hp]⟩,
      fun _ => by simp [Trick.canPlayE, hp],
      fun _ => by simp [Trick.canPlayE, hp],
      fun _ => by simp [Trick.canPlayE, hp]⟩
  by_cases hact : p ∈ t.activePlayers
  swap
  · exact ⟨⟨false, by simp [Trick.canPlayE, hp, hact]⟩,
      fun _ => by simp [Trick.canPlayE, hp, hact],
      fun _ => by simp [Trick.canPlayE, hp, hact],
      fun _ => by simp [Trick.canPlayE, hp, hact]⟩
  match cards with
  | [] =>
    exact ⟨⟨false, by simp [Trick.canPlayE, hp, hact]⟩,
      fun _ => by simp [Trick.canPlayE, hp, hact],
      by rintro ⟨c, hc, _⟩; simp at hc,
      by rintro ⟨c, hc, _⟩; simp at hc⟩
  | c0 :: cs =>
    have hmix : (∃ c ∈ c0 :: cs, ∃ d ∈ c0 :: cs, c.rank ≠ d.rank) →
        ((c0 :: cs).all (fun c => c.rank == c0.rank)) = false := by
      rintro ⟨c, hc, d, hd, hne⟩
      by_contra hall
      have hall' : ((c0 :: cs).all (fun c => c.rank == c0.rank)) = true := by
        simpa using hall
      have hf := List.all_eq_true.mp hall'
      have hcr : c.rank = c0.rank := by simpa using hf c hc
      have hdr : d.rank = c0.rank := by simpa using hf d hd
      exact hne (hcr.trans hdr.symm)
    refine ⟨?_, fun h => absurd h (by simp), ?_, ?_⟩
    · -- totality
      by_cases hrank : ((c0 :: cs).all (fun c => c.rank == c0.rank)) = true
      · by_cases hhand : ((c0 :: cs).all (fun c => p.hand.contains c)) = true
        · have hmem : ∀ x ∈ c0 :: cs, x ∈ p.hand := by
            intro x hx
            have := List.all_eq_true.mp hhand x hx
            simpa using this
          have hmem0 : c0 ∈ p.hand := hmem c0 (by simp)
          have hmemcs : ∀ x ∈ cs, x ∈ p.hand :=
            fun x hx => hmem x (List.mem_cons_of_mem _ hx)
          match hcur : t.currentPlay with
          | none =>
            refine ⟨true, ?_⟩
            simp [Trick.canPlayE, hp, hact, hrank, hcur, hmem0]
            exact hmemcs
          | some cur =>
            refine ⟨Play.beats ⟨c0 :: cs, p.pid, c0.rank⟩ cur, ?_⟩
            simp [Trick.canPlayE, hp, hact, hrank, hcur, hmem0, mkPlay]
            intro x hx hxn
            exact absurd (hmemcs x hx) hxn
        · have habs : ∃ x ∈ c0 :: cs, x ∉ p.hand := by
            have hhand' : ((c0 :: cs).all (fun c => p.hand.contains c)) = false := by
              simpa using hhand
            obtain ⟨x, hx, hxf⟩ := List.all_eq_false.mp hhand'
            exact ⟨x, hx, by simpa using hxf⟩
          refine ⟨false, ?_⟩
          simp [Trick.canPlayE, hp, hact, hrank]
          intro h0 hcs
          obtain ⟨x, hx, hxn⟩ := habs
          rcases List.mem_cons.mp hx with rfl | hx
          · exact absurd h0 hxn
          · exact absurd (hcs x hx) hxn
      · have hrank' : ((c0 :: cs).all (fun c => c.rank == c0.rank)) = false := by
          simpa using hrank
        exact ⟨false, by simp [Trick.canPlayE, hp, hact, hrank']⟩
    · -- mixed ranks yield false
      intro hm
      have hrank' := hmix hm
      simp [Trick.canPlayE, hp, hact, hrank']
    · -- a card absent from the hand yields false
      rintro ⟨c, hc, hch⟩
      by_cases hrank : ((c0 :: cs).all (fun c => c.rank == c0.rank)) = true
      · simp [Trick.canPlayE, hp, hact, hrank]
        intro h0 hcs
        rcases List.mem_cons.mp hc with rfl | hc
        · exact absurd h0 hch
        · exact absurd (hcs c hc) hch
      · have hrank' : ((c0 :: cs).all (fun c => c.rank == c0.rank)) = false := by
          simpa using hrank
        simp [Trick.canPlayE, hp, hact, hrank']

/-- Witness for C9: a mixed-rank pair, and a card not held, both yield
`ok false` on a concrete trick. -/
theorem canPlayE_spec_witness :
    Trick.canPlayE ⟨[⟨0, false, [⟨.clubs, .four⟩]⟩], [], none⟩
      ⟨0, false, [⟨.clubs, .four⟩]⟩
      [⟨.clubs, .four⟩, ⟨.clubs, .five⟩] = Except.ok false ∧
    Trick.canPlayE ⟨[⟨0, false, [⟨.clubs, .four⟩]⟩], [], none⟩
      ⟨0, false, [⟨.clubs, .four⟩]⟩
      [⟨.hearts, .nine⟩] = Except.ok false := by
  constructor
  · exact (canPlayE_spec ⟨[⟨0, false, [⟨.clubs, .four⟩]⟩], [], none⟩
      ⟨0, false, [⟨.clubs, .four⟩]⟩
      [⟨.clubs, .four⟩, ⟨.clubs, .five⟩]).2.2.1 (by decide)
  · exact (canPlayE_spec ⟨[⟨0, false, [⟨.clubs, .four⟩]⟩], [], none⟩
      ⟨0, false, [⟨.clubs, .four⟩]⟩
      [⟨.hearts, .nine⟩]).2.2.2 (by decide)

/-- `Game.calculate_scores` (`src/game.py` lines 279–297): no-op with no
finishers; otherwise the first finisher (the round's President) gains
`max(2, total_rounds - 2)` points on the final round and 1 point
otherwise.  (Python's `total_rounds - 2` can be negative, but under
`max(2, ·)` the result coincides with the ℕ truncated subtraction.) -/
def calculateScores (finished : List Nat) (totalRounds : Nat)
    (isFinalRound : Bool) (score : Nat → Nat) : Nat → Nat :=
  match finished with
  | [] => score
  | president :: _ =>
      fun q =>
        if q = president then
          score q + (if isFinalRound then max 2 (totalRounds - 2) else 1)
        else score q

/-- C8: with at least one recorded finisher, `calculate_scores` adds 1 to
the round President's score on a non-final round and `max(2, total_rounds
− 2)` on the final round, and changes no other player's score. -/
theorem calculateScores_spec (finished : List Nat) (totalRounds : Nat)
    (isFinal : Bool) (score : Nat → Nat) (p0 : Nat) (rest : List Nat)
    (h : finished = p0 :: rest) :
    calculateScores finished totalRounds isFinal score p0 =
      score p0 + (if isFinal then max 2 (totalRounds - 2) else 1) ∧
    (∀ q, q ≠ p0 →
      calculateScores finished totalRounds isFinal score q = score q) := by
  subst h
  constructor
  · simp [calculateScores]
  · intro q hq
    simp [calculateScores, hq]

/-- Witness for C8, Scenario 3: total_rounds = 5, final round gives the
President 3 points; total_rounds = 2, final round gives 2; a non-final
round gives 1. -/
theorem calculateScores_spec_witness :
    calculateScores [7, 8] 5 true (fun _ => 0) 7 = 3 ∧
    calculateScores [7, 8] 2 true (fun _ => 0) 7 = 2 ∧
    calculateScores [7, 8] 5 false (fun _ => 0) 7 = 1 ∧
    calculateScores [7, 8] 5 true (fun _ => 0) 8 = 0 := by
  refine ⟨?_, ?_, ?_, ?_⟩
  · rw [(calculateScores_spec [7, 8] 5 true (fun _ => 0) 7 [8] rfl).1]; decide
  · rw [(calculateScores_spec [7, 8] 2 true (fun _ => 0) 7 [8] rfl).1]; decide
  · rw [(calculateScores_spec [7, 8] 5 false (fun _ => 0) 7 [8] rfl).1]; decide
  · rw [(calculateScores_spec [7, 8] 5 true (fun _ => 0) 7 [8] rfl).2 8
      (by decide)]

/-- A player as seen by the exchange step (`Game.handle_card_exchange`):
rank label and hand. -/
structure PState where
  rank : Label
  hand : List Card
deriving DecidableEq, Repr

/-- Placeholder read for out-of-range indexing (never reached in the
proofs, which carry range bounds). -/
def defaultPState : PState := ⟨Label.unset, []⟩

/-- The rank scan at the top of `handle_card_exchange`: the loop
`for player in self.players: if player.rank == lab: x = player` keeps the
last roster member with the label. -/
def lastIdxWith (lab : Label) (ps : List PState) : Option Nat :=
  ((List.range ps.length).filter
    (fun i => (ps.getD i defaultPState).rank == lab)).getLast?

theorem lastIdxWith_spec (lab : Label) (ps : List PState) (i : Nat)
    (h : lastIdxWith lab ps = some i) :
    i < ps.length ∧ (ps.getD i defaultPState).rank = lab := by
  unfold lastIdxWith at h
  obtain ⟨ys, hys⟩ := List.getLast?_eq_some_iff.mp h
  have hmem : i ∈ (List.range ps.length).filter
      (fun i => (ps.getD i defaultPState).rank == lab) := by
    rw [hys]
    simp
  have h1 := List.mem_filter.mp hmem
  refine ⟨List.mem_range.mp h1.1, ?_⟩
  simpa using h1.2

/-- One direction of the exchange protocol
(`src/game.py` lines 102–156, non-interactive branches): the giver at
`gi` surrenders its `num` strongest cards via `choose_cards_to_give`
(which sorts its hand in place), the receiver at `ri` takes them, sorts,
and hands back the first `num` cards of its sorted hand. -/
def exchangePair (ps : List PState) (gi ri num : Nat) : Option (List PState) :=
  let giver := ps.getD gi defaultPState
  match chooseCardsToGive giver.hand num with
  | none => none
  | some (gCards, gSorted) =>
    match removeCards gCards gSorted with
    | none => none
    | some gHand =>
      let ps1 := ps.set gi ⟨giver.rank, gHand⟩
      let recv := ps1.getD ri defaultPState
      let ps2 := ps1.set ri ⟨recv.rank, recv.hand ++ gCards⟩
      let recv2 := ps2.getD ri defaultPState
      let rSorted := sortHand recv2.hand
      let back := rSorted.take num
      match removeCards back rSorted with
      | none => none
      | some rHand =>
        let ps3 := ps2.set ri ⟨recv2.rank, rHand⟩
        let giver3 := ps3.getD gi defaultPState
        some (ps3.set gi ⟨giver3.rank, giver3.hand ++ back⟩)

/-- `Game.handle_card_exchange` (`src/game.py` lines 72–156),
non-interactive: President↔Scum with 2 cards when both exist and hold at
least 2, then Vice-President↔Vice-Scum with 1 card when both exist and
hold at least 1 (the second guard reads the hands after the first
exchange, as the source does). -/
def handleCardExchange (ps : List PState) : Option (List PState) :=
  let pIdx := lastIdxWith Label.president ps
  let sIdx := lastIdxWith Label.scum ps
  let vpIdx := lastIdxWith Label.vicePresident ps
  let vsIdx := lastIdxWith Label.viceScum ps
  let step1 : Option (List PState) :=
    match pIdx, sIdx with
    | some pi, some si =>
        if 2 ≤ (ps.getD si defaultPState).hand.length ∧
            2 ≤ (ps.getD pi defaultPState).hand.length then
          exchangePair ps si pi 2
        else some ps
    | _, _ => some ps
  match step1 with
  | none => none
  | some ps1 =>
    match vpIdx, vsIdx with
    | some vi, some wi =>
        if 1 ≤ (ps1.getD wi defaultPState).hand.length ∧
            1 ≤ (ps1.getD vi defaultPState).hand.length then
          exchangePair ps1 wi vi 1
        else some ps1
    | _, _ => some ps1

theorem removeCards_count_le (cards hand : List Card)
    (hsub : ∀ x, cards.count x ≤ hand.count x) :
    ∃ h', removeCards cards hand = some h' ∧
      h'.length = hand.length - cards.length ∧
      (∀ x, h'.count x = hand.count x - cards.count x) := by
  induction cards generalizing hand with
  | nil => exact ⟨hand, rfl, by simp, by simp⟩
  | cons c cs ih =>
    have hc : c ∈ hand := by
      have h1 : 0 < (c :: cs).count c := by simp
      exact List.count_pos_iff.mp (Nat.lt_of_lt_of_le h1 (hsub c))
    have hsub' : ∀ x, cs.count x ≤ (hand.erase c).count x := by
      intro x
      rw [List.count_erase]
      have := hsub x
      rw [List.count_cons] at this
      by_cases hx : c = x
      · subst hx; simp at this ⊢; omega
      · simp [hx] at this ⊢
        omega
    obtain ⟨h', heq, hlen, hcount⟩ := ih (hand.erase c) hsub'
    refine ⟨h', ?_, ?_, ?_⟩
    · simp [removeCards, hc, heq]
    · rw [hlen, List.length_erase_of_mem hc]
      simp
      omega
    · intro x
      rw [hcount x, List.count_erase, List.count_cons]
      by_cases hx : c = x
      · subst hx; simp; omega
      · simp [hx, Ne.symm hx]

theorem getD_set_self (l : List PState) (i : Nat) (a : PState)
    (h : i < l.length) : (l.set i a).getD i defaultPState = a := by
  rw [List.getD_eq_getElem?_getD, List.getElem?_set_self h]
  rfl

theorem getD_set_ne (l : List PState) (i j : Nat) (a : PState)
    (hij : i ≠ j) : (l.set i a).getD j defaultPState = l.getD j defaultPState := by
  rw [List.getD_eq_getElem?_getD, List.getD_eq_getElem?_getD,
    List.getElem?_set_ne hij]

theorem exchangePair_spec (ps : List PState) (gi ri num : Nat)
    (hgi : gi < ps.length) (hri : ri < ps.length) (hgr : gi ≠ ri)
    (hnum1 : 1 ≤ num)
    (hnum : num ≤ (ps.getD gi defaultPState).hand.length) :
    ∃ qs, exchangePair ps gi ri num = some qs ∧
      qs.length = ps.length ∧
      (∀ i, (qs.getD i defaultPState).hand.length =
        (ps.getD i defaultPState).hand.length) := by
  obtain ⟨gCards, s, hchoose, hgclen, hgcsub, hslen⟩ :
      ∃ gCards s,
        chooseCardsToGive (ps.getD gi defaultPState).hand num =
          some (gCards, s) ∧
        gCards.length = num ∧ (∀ x, gCards.count x ≤ s.count x) ∧
        s.length = (ps.getD gi defaultPState).hand.length := by
    refine ⟨lastSlice (sortHand (ps.getD gi defaultPState).hand) num,
      sortHand (ps.getD gi defaultPState).hand, ?_, ?_, ?_, length_sortHand _⟩
    · unfold chooseCardsToGive
      rw [if_neg (by omega)]
    · rw [lastSlice, if_neg (by omega), List.length_drop, length_sortHand]
      omega
    · intro x
      rw [lastSlice, if_neg (by omega)]
      exact (List.drop_sublist _ _).count_le x
  obtain ⟨gHand, hrem1, hlen1, _⟩ := removeCards_count_le gCards s hgcsub
  have hghlen : gHand.length =
      (ps.getD gi defaultPState).hand.length - num := by
    rw [hlen1, hslen, hgclen]
  obtain ⟨rHand, hrem2, hlen2, _⟩ := removeCards_count_le
    ((sortHand ((ps.getD ri defaultPState).hand ++ gCards)).take num)
    (sortHand ((ps.getD ri defaultPState).hand ++ gCards))
    (fun x => (List.take_sublist _ _).count_le x)
  have hrhlen : rHand.length = (ps.getD ri defaultPState).hand.length := by
    rw [hlen2, List.length_take, length_sortHand, List.length_append, hgclen]
    omega
  refine ⟨((ps.set gi ⟨(ps.getD gi defaultPState).rank, gHand⟩).set ri
      ⟨(ps.getD ri defaultPState).rank, rHand⟩).set gi
      ⟨(ps.getD gi defaultPState).rank, gHand ++
        (sortHand ((ps.getD ri defaultPState).hand ++ gCards)).take num⟩,
    ?_, ?_, ?_⟩
  · simp only [exchangePair, hchoose]
    rw [hrem1]
    simp only [getD_set_ne ps gi ri _ hgr]
    rw [getD_set_self _ ri _ (by rw [List.length_set]; exact hri)]
    rw [hrem2]
    simp only [List.set_set]
    rw [getD_set_ne _ ri gi _ (Ne.symm hgr), getD_set_self _ gi _ hgi]
  · simp [List.length_set]
  · intro i
    by_cases higi : i = gi
    · subst higi
      rw [getD_set_self _ i _ (by simp [List.length_set]; exact hgi)]
      simp only [List.length_append, List.length_take, length_sortHand,
        List.length_append, hghlen, hgclen]
      omega
    · rw [getD_set_ne _ gi i _ (fun h => higi h.symm)]
      by_cases hiri : i = ri
      · subst hiri
        rw [getD_set_self _ i _ (by rw [List.length_set]; exact hri)]
        exact hrhlen
      · rw [getD_set_ne _ ri i _ (fun h => hiri h.symm),
          getD_set_ne _ gi i _ (fun h => higi h.symm)]

theorem exchangeGuard_spec (ps : List PState) (i j num : Nat)
    (hnum1 : 1 ≤ num) (hi : i < ps.length) (hj : j < ps.length)
    (hij : i ≠ j) :
    ∃ qs, (if num ≤ (ps.getD i defaultPState).hand.length ∧
        num ≤ (ps.getD j defaultPState).hand.length then
          exchangePair ps i j num
        else some ps) = some qs ∧
      qs.length = ps.length ∧
      (∀ k, (qs.getD k defaultPState).hand.length =
        (ps.getD k defaultPState).hand.length) := by
  by_cases hcond : num ≤ (ps.getD i defaultPState).hand.length ∧
      num ≤ (ps.getD j defaultPState).hand.length
  · rw [if_pos hcond]
    exact exchangePair_spec ps i j num hi hj hij hnum1 hcond.1
  · rw [if_neg hcond]
    exact ⟨ps, rfl, rfl, fun _ => rfl⟩

theorem handleCardExchange_total (ps : List PState) :
    ∃ qs, handleCardExchange ps = some qs ∧
      qs.length = ps.length ∧
      (∀ k, (qs.getD k defaultPState).hand.length =
        (ps.getD k defaultPState).hand.length) := by
  have hstep1 : ∃ ps1,
      (match lastIdxWith Label.president ps, lastIdxWith Label.scum ps with
        | some pi, some si =>
            if 2 ≤ (ps.getD si defaultPState).hand.length ∧
                2 ≤ (ps.getD pi defaultPState).hand.length then
              exchangePair ps si pi 2
            else some ps
        | _, _ => some ps) = some ps1 ∧
      ps1.length = ps.length ∧
      (∀ k, (ps1.getD k defaultPState).hand.length =
        (ps.getD k defaultPState).hand.length) := by
    cases hpi : lastIdxWith Label.president ps with
    | none =>
      cases lastIdxWith Label.scum ps <;>
        exact ⟨ps, rfl, rfl, fun _ => rfl⟩
    | some pi =>
      cases hsi : lastIdxWith Label.scum ps with
      | none => exact ⟨ps, rfl, rfl, fun _ => rfl⟩
      | some si =>
        have hp := lastIdxWith_spec _ _ _ hpi
        have hs := lastIdxWith_spec _ _ _ hsi
        have hne : si ≠ pi := by
          intro h
          rw [h, hp.2] at hs
          exact absurd hs.2 (by simp)
        exact exchangeGuard_spec ps si pi 2 (by omega) hs.1 hp.1 hne
  obtain ⟨ps1, h1, hlen1, hpt1⟩ := hstep1
  have hstep2 : ∃ qs,
      (match lastIdxWith Label.vicePresident ps, lastIdxWith Label.viceScum ps with
        | some vi, some wi =>
            if 1 ≤ (ps1.getD wi defaultPState).hand.length ∧
                1 ≤ (ps1.getD vi defaultPState).hand.length then
              exchangePair ps1 wi vi 1
            else some ps1
        | _, _ => some ps1) = some qs ∧
      qs.length = ps1.length ∧
      (∀ k, (qs.getD k defaultPState).hand.length =
        (ps1.getD k defaultPState).hand.length) := by
    cases hvi : lastIdxWith Label.vicePresident ps with
    | none =>
      cases lastIdxWith Label.viceScum ps <;>
        exact ⟨ps1, rfl, rfl, fun _ => rfl⟩
    | some vi =>
      cases hwi : lastIdxWith Label.viceScum ps with
      | none => exact ⟨ps1, rfl, rfl, fun _ => rfl⟩
      | some wi =>
        have hv := lastIdxWith_spec _ _ _ hvi
        have hw := lastIdxWith_spec _ _ _ hwi
        have hne : wi ≠ vi := by
          intro h
          rw [h, hv.2] at hw
          exact absurd hw.2 (by simp)
        exact exchangeGuard_spec ps1 wi vi 1 (by omega)
          (by omega) (by omega) hne
  obtain ⟨qs, h2, hlen2, hpt2⟩ := hstep2
  refine ⟨qs, ?_, by omega, fun k => (hpt2 k).trans (hpt1 k)⟩
  simp only [handleCardExchange]
  rw [h1]
  exact h2

/-- C6: whenever a President and a Scum exist and each holds at least 2
cards — or a Vice-President and a Vice-Scum each holding at least 1 —
the non-interactive exchange succeeds, leaves every player's hand size
(in particular both participants') unchanged, and keeps the total card
count over all hands unchanged. -/
theorem handleCardExchange_spec (ps : List PState)
    (h : (∃ pi si, lastIdxWith Label.president ps = some pi ∧
            lastIdxWith Label.scum ps = some si ∧
            2 ≤ (ps.getD si defaultPState).hand.length ∧
            2 ≤ (ps.getD pi defaultPState).hand.length) ∨
         (∃ vi wi, lastIdxWith Label.vicePresident ps = some vi ∧
            lastIdxWith Label.viceScum ps = some wi ∧
            1 ≤ (ps.getD wi defaultPState).hand.length ∧
            1 ≤ (ps.getD vi defaultPState).hand.length)) :
    ∃ qs, handleCardExchange ps = some qs ∧
      (∀ k, (qs.getD k defaultPState).hand.length =
        (ps.getD k defaultPState).hand.length) ∧
      (qs.map (fun p => p.hand.length)).sum =
        (ps.map (fun p => p.hand.length)).sum := by
  obtain ⟨qs, heq, hlen, hpt⟩ := handleCardExchange_total ps
  refine ⟨qs, heq, hpt, ?_⟩
  have hmap : qs.map (fun p => p.hand.length) =
      ps.map (fun p => p.hand.length) := by
    apply List.ext_getElem
    · simp [hlen]
    · intro i hi1 hi2
      have hiq : i < qs.length := by simpa using hi1
      have hip : i < ps.length := by simpa using hi2
      have := hpt i
      rw [List.getD_eq_getElem _ _ hiq, List.getD_eq_getElem _ _ hip] at this
      simpa using this
  rw [hmap]

/-- Witness for C6: a 4-player state with all four ranks present; the
exchange preserves every hand size and the total. -/
theorem handleCardExchange_spec_witness :
    ∃ qs, handleCardExchange
        [⟨Label.president, [⟨.clubs, .three⟩, ⟨.hearts, .four⟩]⟩,
         ⟨Label.scum, [⟨.clubs, .king⟩, ⟨.diamonds, .two⟩]⟩,
         ⟨Label.vicePresident, [⟨.hearts, .five⟩]⟩,
         ⟨Label.viceScum, [⟨.spades, .ace⟩]⟩] = some qs ∧
      (∀ k, (qs.getD k defaultPState).hand.length =
        (([⟨Label.president, [⟨.clubs, .three⟩, ⟨.hearts, .four⟩]⟩,
         ⟨Label.scum, [⟨.clubs, .king⟩, ⟨.diamonds, .two⟩]⟩,
         ⟨Label.vicePresident, [⟨.hearts, .five⟩]⟩,
         ⟨Label.viceScum, [⟨.spades, .ace⟩]⟩] : List PState).getD k
          defaultPState).hand.length) ∧
      (qs.map (fun p => p.hand.length)).sum =
        (([⟨Label.president, [⟨.clubs, .three⟩, ⟨.hearts, .four⟩]⟩,
         ⟨Label.scum, [⟨.clubs, .king⟩, ⟨.diamonds, .two⟩]⟩,
         ⟨Label.vicePresident, [⟨.hearts, .five⟩]⟩,
         ⟨Label.viceScum, [⟨.spades, .ace⟩]⟩] : List PState).map
          (fun p => p.hand.length)).sum :=
  handleCardExchange_spec _ (Or.inl ⟨0, 1, by decide, by decide, by decide,
    by decide⟩)

end President
